import Mathlib

/-!
Verification of the Aliyun OSS artifact repository plugin
(`aliyunstoreplugin/store/artifact/aliyun_oss_artifact_repo.py`).

The development shallowly embeds the pure content of the repository's
operations: URI parsing, key derivation for uploads and downloads, the
listing reconciliation algorithm, the defensive path check, the memoized
bucket handle, and the unimplemented deletion.  Stateful collaborators
(the OSS SDK, the filesystem walk) are modelled by passing their observable
behaviour as explicit arguments.  All definitions are executable.
-/

namespace AliyunOss

instance {ε α : Type} [DecidableEq ε] [DecidableEq α] : DecidableEq (Except ε α) := fun x y =>
  match x, y with
  | .ok a, .ok b =>
    if h : a = b then isTrue (by rw [h]) else isFalse (fun hh => h (by injection hh))
  | .error a, .error b =>
    if h : a = b then isTrue (by rw [h]) else isFalse (fun hh => h (by injection hh))
  | .ok _, .error _ => isFalse (fun hh => by injection hh)
  | .error _, .ok _ => isFalse (fun hh => by injection hh)

/-- The error kinds the module can raise.  The source raises a plain
`Exception("Not an OSS URI: ...")` in `parse_oss_uri` (the spec's
`InvalidURIScheme`), and `MlflowException`s for the listing invariant
violation (the spec's `ObjectPathMismatch`) and for deletion (the spec's
`NotImplemented`).  Each constructor carries the data interpolated into the
corresponding Python message. -/
inductive Err where
  | invalidURIScheme (uri : String)
  | objectPathMismatch (artifact_path object_path : String)
  | notImplemented
deriving DecidableEq

/-- `mlflow.entities.FileInfo`: the entry produced by `list_artifacts`.
`file_size` is `none` for directories (the code passes `None`). -/
structure FileInfo where
  path : String
  is_dir : Bool
  file_size : Option Nat
deriving DecidableEq

/-- An element of `oss2`'s `object_list`: an object key together with the
collaborator-reported size (`obj.key`, `obj.size`). -/
structure SimplifiedObjectInfo where
  key : String
  size : Nat
deriving DecidableEq

/-- The result of the collaborator's `list_objects(prefix=..., delimiter=...)`
call: matched object keys (`object_list`) and matched common prefixes
(`prefix_list`, here `pfx_list`). -/
structure ListObjectsResult where
  object_list : List SimplifiedObjectInfo
  pfx_list : List String
deriving DecidableEq

/-! ### String helpers (character-list level embeddings of the Python
string operations used by the source) -/

/-- `s.startswith("/")`: the first character is a slash. -/
def startsWithSlash (s : String) : Prop := s.data.head? = some '/'

instance (s : String) : Decidable (startsWithSlash s) := by
  unfold startsWithSlash; infer_instance

/-- `s.endswith("/")`: the last character is a slash. -/
def endsWithSlash (s : String) : Prop := s.data.getLast? = some '/'

instance (s : String) : Decidable (endsWithSlash s) := by
  unfold endsWithSlash; infer_instance

/-- Python `s.startswith(t)` for arbitrary `t`: `t` is a prefix of `s`. -/
def strStartsWith (s t : String) : Bool := t.data.isPrefixOf s.data

/-- Python string `<` (lexicographic on code points), on character lists. -/
def charListLt : List Char → List Char → Bool
  | [], [] => false
  | [], _ :: _ => true
  | _ :: _, [] => false
  | a :: as, b :: bs => if a = b then charListLt as bs else decide (a < b)

/-- Python string `<` (lexicographic comparison by code point). -/
def strLt (a b : String) : Bool := charListLt a.data b.data

/-- `posixpath.join(a, b)` for two arguments, translated from CPython's
`posixpath.join`: an absolute second argument replaces the first; otherwise
the parts are glued with `/` unless the first is empty or already ends
with `/`. -/
def posixJoin (a b : String) : String :=
  if startsWithSlash b then b
  else if a = "" ∨ endsWithSlash a then a ++ b
  else a ++ "/" ++ b

/-- `os.path.basename` on a posix host: everything after the last `/`. -/
def posixBasename (p : String) : String :=
  String.mk ((p.data.reverse.takeWhile (fun c => c != '/')).reverse)

/-- Split a character list at every `/` (Python `p.split("/")`). -/
def splitSlash : List Char → List (List Char)
  | [] => [[]]
  | c :: cs =>
    if c = '/' then [] :: splitSlash cs
    else
      match splitSlash cs with
      | [] => [[c]]
      | h :: t => (c :: h) :: t

/-- `[x for x in p.split("/") if x]`: the nonempty `/`-separated components
of a path. -/
def pathComps (s : String) : List String :=
  ((splitSlash s.data).filter (fun l => l ≠ [])).map (fun l => String.mk l)

/-- Length of the common prefix of two component lists
(`len(commonprefix([a, b]))` in `posixpath.relpath`). -/
def commonPrefixLen : List String → List String → Nat
  | a :: as, b :: bs => if a = b then commonPrefixLen as bs + 1 else 0
  | _, _ => 0

/-- Translated from CPython's `posixpath.relpath(path, start)` for
already-normalized relative arguments: both are split into nonempty
components, the common prefix is dropped, and one `..` is emitted for each
remaining `start` component.  (CPython routes both arguments through
`abspath`, which prepends the same working directory to both and cancels in
the common prefix; the normalization `abspath` performs is assumed done,
i.e. the arguments carry no `.`/`..` segments.) -/
def posixRelpath (path start : String) : String :=
  let p := pathComps path
  let s := pathComps start
  let i := commonPrefixLen s p
  let rel := List.replicate (s.length - i) ".." ++ p.drop i
  if rel = [] then "." else String.intercalate "/" rel

/-- `mlflow.utils.file_utils.relative_path_to_artifact_path` converts
`os.sep` into `/`; on a posix host (`os.path is posixpath`) it returns the
path unchanged, which is how it is modelled here. -/
def relative_path_to_artifact_path (p : String) : String := p

/-! ### URI parsing -/

/-- The components of `urllib.parse.urlparse` that `parse_oss_uri` reads. -/
structure UrlParts where
  scheme : String
  netloc : String
  path : String
deriving DecidableEq

/-- A character CPython's `urlsplit` accepts inside a scheme. -/
def schemeChar (c : Char) : Bool :=
  c.isAlpha || c.isDigit || c == '+' || c == '-' || c == '.'

/-- Translated from CPython's `urllib.parse.urlsplit`/`urlparse`, keeping the
fields `parse_oss_uri` uses.  A scheme is recognized before the first `:`
when it is nonempty, starts with an ASCII letter and contains only scheme
characters, and is lowercased; a netloc follows `//` and runs to the next
`/`, `?` or `#`; the path runs to the next `?` or `#`.  Parameter
splitting (`;`) is skipped because `urlparse` only applies it for schemes
in `uses_params`, which does not contain `"oss"` (and for other schemes the
caller never reads the path). -/
def urlparse (url : String) : UrlParts :=
  let d := url.data
  let beforeColon := d.takeWhile (fun c => c != ':')
  let hasScheme : Bool :=
    decide (beforeColon.length < d.length) &&
    (match beforeColon with
     | [] => false
     | c :: _ => c.isAlpha) &&
    beforeColon.all schemeChar
  let scheme := if hasScheme then beforeColon.map Char.toLower else []
  let rest := if hasScheme then d.drop (beforeColon.length + 1) else d
  let hasNetloc : Bool :=
    match rest with
    | '/' :: '/' :: _ => true
    | _ => false
  let netloc :=
    if hasNetloc then
      (rest.drop 2).takeWhile (fun c => !(c == '/' || c == '?' || c == '#'))
    else []
  let afterNetloc :=
    if hasNetloc then (rest.drop 2).drop netloc.length else rest
  let path := afterNetloc.takeWhile (fun c => !(c == '?' || c == '#'))
  ⟨String.mk scheme, String.mk netloc, String.mk path⟩

/-- `if path.startswith("/"): path = path[1:]` — remove exactly one leading
slash when present. -/
def stripOneLeadingSlash (p : String) : String :=
  if startsWithSlash p then String.mk p.data.tail else p

/-- `AliyunOssArtifactRepository.parse_oss_uri`: parse the URI, require the
scheme `oss`, return the netloc as the bucket and the path with one leading
slash removed as the key prefix. -/
def parse_oss_uri (uri : String) : Except Err (String × String) :=
  let parsed := urlparse uri
  if parsed.scheme ≠ "oss" then Except.error (Err.invalidURIScheme uri)
  else Except.ok (parsed.netloc, stripOneLeadingSlash parsed.path)

/-! ### Key derivation for uploads, downloads and listings -/

/-- The shared idiom `if artifact_path: dest_path = posixpath.join(dest_path,
artifact_path)`: the optional sub-path is joined only when it is present and
truthy (non-empty). -/
def applySubpath (dest_path : String) : Option String → String
  | none => dest_path
  | some s => if s = "" then dest_path else posixJoin dest_path s

/-- The destination key built by `log_artifact` (lines 98-101) from the
parsed key prefix `dest_path`, the optional `artifact_path` argument and the
local file name: the sub-path-adjusted prefix joined with
`os.path.basename(local_file)`. -/
def log_artifact_dest (dest_path : String) (artifact_path : Option String)
    (local_file : String) : String :=
  posixJoin (applySubpath dest_path artifact_path) (posixBasename local_file)

/-- The full remote key built by `_download_file` (line 168):
`posixpath.join(oss_root_path, remote_file_path)`. -/
def download_full_path (oss_root_path remote_file_path : String) : String :=
  posixJoin oss_root_path remote_file_path

/-- `delete_artifacts` (lines 172-175): unconditionally raises
`MlflowException`; no storage collaborator is consulted (the embedding takes
no storage argument) and no state is touched. -/
def delete_artifacts (artifact_path : Option String) : Except Err Unit :=
  Except.error Err.notImplemented

/-! ### Bucket handle memoization -/

/-- `oss2.Bucket(auth, endpoint, bucket_name)`: a client object constructed
from the repository's authentication state, the configured endpoint and a
bucket name.  Construction performs no I/O; the fields record the
construction arguments. -/
structure OssBucket where
  auth : String
  endpoint : String
  bucket_name : String
deriving DecidableEq

/-- The mutable state of an `AliyunOssArtifactRepository` instance that
`_get_oss_bucket` reads and writes: the authentication object, the endpoint
URL, and the memoized `oss_bucket` (initialized to `None`). -/
structure RepoState where
  auth : String
  oss_endpoint_url : String
  oss_bucket : Option OssBucket
deriving DecidableEq

/-- `_get_oss_bucket` (lines 90-95): return the stored handle when present,
otherwise construct one from the instance's auth and endpoint plus the given
bucket name, store it and return it. -/
def _get_oss_bucket (s : RepoState) (bucket : String) : OssBucket × RepoState :=
  match s.oss_bucket with
  | some b => (b, s)
  | none =>
    let b : OssBucket := ⟨s.auth, s.oss_endpoint_url, bucket⟩
    (b, { s with oss_bucket := some b })

/-! ### Listing -/

/-- Stable insertion of a `FileInfo` into a list sorted ascending by `path`
under Python's string order. -/
def insertByPath (x : FileInfo) : List FileInfo → List FileInfo
  | [] => [x]
  | y :: ys => if strLt x.path y.path then x :: y :: ys else y :: insertByPath x ys

/-- `sorted(infos, key=lambda f: f.path)`: a stable ascending sort by the
`path` field (insertion sort; stable sorts by the same key agree, so this
models CPython's `sorted`). -/
def sortByPath (l : List FileInfo) : List FileInfo :=
  l.foldl (fun acc x => insertByPath x acc) []

/-- `_verify_listed_object_contains_artifact_path_prefix` (lines 153-164):
fail unless the listed path starts with the artifact path. -/
def verify_listed (listed_object_path artifact_path : String) : Except Err Unit :=
  if strStartsWith listed_object_path artifact_path then Except.ok ()
  else Except.error (Err.objectPathMismatch artifact_path listed_object_path)

/-- The first loop of `list_artifacts` (lines 134-142): each returned object
key is verified against the artifact path and mapped to a file entry whose
relative path is `posixpath.relpath(key, artifact_path)` and whose size is
the collaborator-reported size.  The first verification failure aborts. -/
def processObjects (artifact_path : String) :
    List SimplifiedObjectInfo → Except Err (List FileInfo)
  | [] => Except.ok []
  | obj :: rest =>
    match verify_listed obj.key artifact_path with
    | Except.error e => Except.error e
    | Except.ok _ =>
      match processObjects artifact_path rest with
      | Except.error e => Except.error e
      | Except.ok infos =>
        Except.ok (⟨posixRelpath obj.key artifact_path, false, some obj.size⟩ :: infos)

/-- The second loop of `list_artifacts` (lines 144-150): each returned common
prefix is verified and mapped to a directory entry with no size. -/
def processSubdirs (artifact_path : String) :
    List String → Except Err (List FileInfo)
  | [] => Except.ok []
  | subdir_path :: rest =>
    match verify_listed subdir_path artifact_path with
    | Except.error e => Except.error e
    | Except.ok _ =>
      match processSubdirs artifact_path rest with
      | Except.error e => Except.error e
      | Except.ok infos =>
        Except.ok (⟨posixRelpath subdir_path artifact_path, true, none⟩ :: infos)

/-- The reconciliation part of `list_artifacts` (lines 134-151), applied to
the collaborator's response: file entries, then directory entries, sorted
ascending by relative path. -/
def list_artifacts_results (artifact_path : String) (results : ListObjectsResult) :
    Except Err (List FileInfo) :=
  match processObjects artifact_path results.object_list with
  | Except.error e => Except.error e
  | Except.ok fileInfos =>
    match processSubdirs artifact_path results.pfx_list with
    | Except.error e => Except.error e
    | Except.ok dirInfos => Except.ok (sortByPath (fileInfos ++ dirInfos))

/-- The query prefix of `list_artifacts` (lines 124-128):
`dest_path + "/" if dest_path else ""` after joining the optional sub-path. -/
def list_query_pfx (artifact_path : String) (path : Option String) : String :=
  let dest_path := applySubpath artifact_path path
  if dest_path ≠ "" then dest_path ++ "/" else ""

/-- `list_artifacts` (lines 122-151).  The storage collaborator is passed as
a function from the query arguments (prefix, delimiter) to its single-page
response; the code calls it once, with the derived query prefix and the
delimiter `"/"`. -/
def list_artifacts (artifact_uri : String) (path : Option String)
    (storage : String → String → ListObjectsResult) : Except Err (List FileInfo) :=
  match parse_oss_uri artifact_uri with
  | Except.error e => Except.error e
  | Except.ok (_bucket, artifact_path) =>
    list_artifacts_results artifact_path (storage (list_query_pfx artifact_path path) "/")

/-! ### Directory upload -/

/-- The root directory of a walk entry: the walk root extended by the
directory's path components, each step joined as `os.path.join` does on a
posix host. -/
def walkRoot (local_dir : String) (rel : List String) : String :=
  rel.foldl posixJoin local_dir

/-- The `(root, filenames)` pairs `os.walk(local_dir)` yields for a local
tree whose directories are given by their component paths relative to the
walk root (the walk root itself is the entry with components `[]`).
Modelled from the spec's walk contract: each directory is visited once and
its regular files are reported with it; `os.walk` itself is an external
primitive. -/
def os_walk_entries (local_dir : String) (dirs : List (List String × List String)) :
    List (String × List String) :=
  dirs.map (fun d => (walkRoot local_dir d.1, d.2))

/-- The body of the `log_artifacts` walk loop (lines 111-120) for one walk
entry: the upload path is `dest_path` for the walk root itself, and
`posixpath.join(dest_path, relative_path_to_artifact_path(os.path.relpath(root,
local_dir)))` for any other directory; each contained file is uploaded to
the upload path joined with its name. -/
def uploadKeysOfEntry (dest_path local_dir : String) (entry : String × List String) :
    List String :=
  let upload_path :=
    if entry.1 = local_dir then dest_path
    else posixJoin dest_path (relative_path_to_artifact_path (posixRelpath entry.1 local_dir))
  entry.2.map (fun f => posixJoin upload_path f)

/-- The remote keys uploaded by `log_artifacts` (lines 105-120), given the
parsed key prefix `dest_path`, the optional `artifact_path` argument, the
(absolute, normalized) walk root and the walk entries. -/
def log_artifacts_keys (dest_path : String) (artifact_path : Option String)
    (local_dir : String) (walk : List (String × List String)) : List String :=
  let dest := applySubpath dest_path artifact_path
  (walk.map (uploadKeysOfEntry dest local_dir)).flatten

/-- A directory or file name is clean when it is a real single path
component: nonempty, without `/`, and not one of the special entries `.`
and `..` (which a real directory listing never contains and which
`os.path.abspath` would normalize away). -/
def cleanName (n : String) : Bool :=
  n != "" && !(n.data.contains '/') && n != "." && n != ".."

/-- The keys the spec's directory-upload contract prescribes: files directly
in the walk root go to `join(effectiveRoot, filename)`; files in a
descendant directory with relative component path `rel` go to
`join(effectiveRoot, relativeDirPath, filename)` where `relativeDirPath`
is the components joined with `/`. -/
def specUploadKeys (effRoot : String) (dirs : List (List String × List String)) :
    List String :=
  (dirs.map (fun d =>
    let upPath :=
      if d.1 = [] then effRoot
      else posixJoin effRoot (String.intercalate "/" d.1)
    d.2.map (fun f => posixJoin upPath f))).flatten

/-! ### Helper lemmas: strings and path components -/

theorem str_data_append (a b : String) : (a ++ b).data = a.data ++ b.data := rfl

theorem str_eq_of_data_eq {a b : String} (h : a.data = b.data) : a = b := by
  cases a; cases b; simp_all

theorem str_ne_empty_of_data_ne {a : String} (h : a.data ≠ []) : a ≠ "" := by
  intro he; rw [he] at h; exact h rfl

theorem data_ne_nil_of_ne_empty {a : String} (h : a ≠ "") : a.data ≠ [] := by
  intro he; exact h (str_eq_of_data_eq he)

theorem posixJoin_eq_slash {a b : String} (ha : a ≠ "") (ha2 : ¬ endsWithSlash a)
    (hb : ¬ startsWithSlash b) : posixJoin a b = a ++ "/" ++ b := by
  unfold posixJoin
  rw [if_neg hb, if_neg]
  rintro (h | h)
  · exact ha h
  · exact ha2 h

theorem endsWithSlash_append {a : String} (b : String) (hb : b ≠ "") :
    endsWithSlash (a ++ b) ↔ endsWithSlash b := by
  unfold endsWithSlash
  rw [str_data_append, List.getLast?_append_of_ne_nil _ (data_ne_nil_of_ne_empty hb)]

theorem append_slash_ne_empty (a b : String) : a ++ "/" ++ b ≠ "" := by
  apply str_ne_empty_of_data_ne
  rw [str_data_append, str_data_append]
  intro h
  have h2 := (List.append_eq_nil.mp h).1
  have h3 := (List.append_eq_nil.mp h2).2
  cases h3

theorem not_startsWithSlash_posixBasename (f : String) :
    ¬ startsWithSlash (posixBasename f) := by
  intro h
  have h' : ((f.data.reverse.takeWhile (fun c => c != '/')).reverse).head? = some '/' := h
  have hmem : '/' ∈ f.data.reverse.takeWhile (fun c => c != '/') := by
    rw [← List.mem_reverse]
    cases hc : (f.data.reverse.takeWhile (fun c => c != '/')).reverse with
    | nil => rw [hc] at h'; cases h'
    | cons x xs =>
      rw [hc] at h'
      have hx : x = '/' := by simpa using h'
      rw [← hx]
      exact List.mem_cons_self x xs
  have := List.mem_takeWhile_imp hmem
  simp at this

theorem not_contains_of_cleanName {n : String} (h : cleanName n = true) :
    '/' ∉ n.data := by
  simp [cleanName] at h
  exact h.1.1.2

theorem ne_empty_of_cleanName {n : String} (h : cleanName n = true) : n ≠ "" := by
  simp [cleanName] at h
  exact h.1.1.1

theorem not_startsWithSlash_of_cleanName {n : String} (h : cleanName n = true) :
    ¬ startsWithSlash n := by
  intro hs
  apply not_contains_of_cleanName h
  unfold startsWithSlash at hs
  cases hc : n.data with
  | nil => rw [hc] at hs; cases hs
  | cons x xs =>
    rw [hc] at hs
    have hx : x = '/' := by simpa using hs
    rw [← hx]
    exact List.mem_cons_self x xs

theorem splitSlash_ne_nil (l : List Char) : splitSlash l ≠ [] := by
  cases l with
  | nil => simp [splitSlash]
  | cons c cs =>
    unfold splitSlash
    by_cases h : c = '/'
    · simp [h]
    · rw [if_neg h]
      cases hr : splitSlash cs <;> simp

theorem splitSlash_nil : splitSlash [] = [[]] := rfl

theorem splitSlash_cons_slash (b : List Char) :
    splitSlash ('/' :: b) = [] :: splitSlash b := rfl

theorem splitSlash_cons_ne {c : Char} (h : c ≠ '/') (cs : List Char) :
    splitSlash (c :: cs) =
      match splitSlash cs with
      | [] => [[c]]
      | h :: t => (c :: h) :: t := by
  have heq : splitSlash (c :: cs) =
      if c = '/' then [] :: splitSlash cs
      else
        match splitSlash cs with
        | [] => [[c]]
        | h :: t => (c :: h) :: t := rfl
  rw [heq, if_neg h]

theorem splitSlash_append (a b : List Char) :
    splitSlash (a ++ '/' :: b) = splitSlash a ++ splitSlash b := by
  induction a with
  | nil =>
    rw [List.nil_append, splitSlash_cons_slash, splitSlash_nil]
    rfl
  | cons c cs ih =>
    by_cases h : c = '/'
    · subst h
      rw [List.cons_append, splitSlash_cons_slash, splitSlash_cons_slash, ih]
      rfl
    · rw [List.cons_append, splitSlash_cons_ne h, splitSlash_cons_ne h, ih]
      cases hr : splitSlash cs with
      | nil => exact absurd hr (splitSlash_ne_nil cs)
      | cons h1 t1 => rfl

theorem splitSlash_no_slash {l : List Char} (h : '/' ∉ l) : splitSlash l = [l] := by
  induction l with
  | nil => rfl
  | cons c cs ih =>
    have hc : c ≠ '/' := fun he => h (he ▸ List.mem_cons_self c cs)
    have hcs : '/' ∉ cs := fun hm => h (List.mem_cons_of_mem c hm)
    unfold splitSlash
    rw [if_neg hc, ih hcs]

theorem pathComps_empty : pathComps "" = [] := rfl

theorem pathComps_append_slash (a b : String) :
    pathComps (a ++ "/" ++ b) = pathComps a ++ pathComps b := by
  unfold pathComps
  rw [str_data_append, str_data_append]
  have hs : (("/" : String)).data = ['/'] := rfl
  rw [hs, List.append_assoc]
  show ((splitSlash (a.data ++ '/' :: b.data)).filter _).map _ = _
  rw [splitSlash_append, List.filter_append, List.map_append]

theorem pathComps_clean {n : String} (h : cleanName n = true) : pathComps n = [n] := by
  unfold pathComps
  rw [splitSlash_no_slash (not_contains_of_cleanName h)]
  have hne : n.data ≠ [] := data_ne_nil_of_ne_empty (ne_empty_of_cleanName h)
  simp [hne]

theorem pathComps_posixJoin {r n : String} (h : cleanName n = true) :
    pathComps (posixJoin r n) = pathComps r ++ [n] := by
  have hn := not_startsWithSlash_of_cleanName h
  unfold posixJoin
  rw [if_neg hn]
  by_cases hcase : r = "" ∨ endsWithSlash r
  · rw [if_pos hcase]
    cases hcase with
    | inl he =>
      subst he
      have : ("" ++ n : String) = n := str_eq_of_data_eq (by rw [str_data_append]; rfl)
      rw [this, pathComps_clean h, pathComps_empty, List.nil_append]
    | inr he =>
      have hrne : r.data ≠ [] := by
        intro hnil; unfold endsWithSlash at he; rw [hnil] at he; cases he
      have hlast : r.data.getLast hrne = '/' := by
        have h2 := List.getLast?_eq_getLast r.data hrne
        unfold endsWithSlash at he
        rw [h2] at he
        exact Option.some.inj he
      have hsplit : r.data = r.data.dropLast ++ ['/'] := by
        conv_lhs => rw [← List.dropLast_append_getLast hrne]
        rw [hlast]
      unfold pathComps
      rw [str_data_append]
      conv_lhs => rw [hsplit]
      rw [List.append_assoc]
      show ((splitSlash (r.data.dropLast ++ '/' :: n.data)).filter _).map _ = _
      rw [splitSlash_append]
      conv_rhs => rw [hsplit]
      show _ = ((splitSlash (r.data.dropLast ++ '/' :: [])).filter _).map _ ++ [n]
      rw [splitSlash_append]
      rw [splitSlash_no_slash (l := n.data) (not_contains_of_cleanName h)]
      have hnd : splitSlash ([] : List Char) = [[]] := rfl
      rw [hnd]
      rw [List.filter_append, List.filter_append, List.map_append, List.map_append]
      have hfn : (([n.data] : List (List Char)).filter (fun l => l ≠ [])).map
          (fun l => String.mk l) = [n] := by
        have hne : n.data ≠ [] := data_ne_nil_of_ne_empty (ne_empty_of_cleanName h)
        simp [hne]
      have hfe : (([[]] : List (List Char)).filter (fun l => l ≠ [])).map
          (fun l => String.mk l) = [] := by simp
      rw [hfn, hfe, List.append_nil]
  · rw [if_neg hcase]
    rw [pathComps_append_slash, pathComps_clean h]

theorem pathComps_walkRoot (local_dir : String) (rel : List String)
    (h : ∀ n ∈ rel, cleanName n = true) :
    pathComps (walkRoot local_dir rel) = pathComps local_dir ++ rel := by
  induction rel generalizing local_dir with
  | nil => simp [walkRoot]
  | cons n ns ih =>
    unfold walkRoot
    rw [List.foldl_cons]
    have h1 := ih (posixJoin local_dir n) (fun m hm => h m (List.mem_cons_of_mem n hm))
    unfold walkRoot at h1
    rw [h1, pathComps_posixJoin (h n (List.mem_cons_self n ns)), List.append_assoc]
    rfl

theorem commonPrefixLen_self_append (s r : List String) :
    commonPrefixLen s (s ++ r) = s.length := by
  induction s with
  | nil => cases r <;> rfl
  | cons a as ih => simp [commonPrefixLen, ih]

theorem posixRelpath_of_comps {path start : String} {rel : List String}
    (h : pathComps path = pathComps start ++ rel) (hne : rel ≠ []) :
    posixRelpath path start = String.intercalate "/" rel := by
  simp only [posixRelpath]
  rw [h, commonPrefixLen_self_append, Nat.sub_self, List.replicate_zero,
    List.nil_append, List.drop_left, if_neg hne]

/-! ### Helper lemmas: the sort used by the listing -/

theorem charListLt_asymm {a b : List Char} (h : charListLt a b = true) :
    charListLt b a = false := by
  induction a generalizing b with
  | nil =>
    cases b with
    | nil => simp [charListLt] at h
    | cons c cs => simp [charListLt]
  | cons x xs ih =>
    cases b with
    | nil => simp [charListLt] at h
    | cons y ys =>
      simp only [charListLt] at h ⊢
      by_cases hxy : x = y
      · subst hxy
        rw [if_pos rfl] at h ⊢
        exact ih h
      · have hyx : y ≠ x := fun he => hxy he.symm
        rw [if_neg hxy] at h
        rw [if_neg hyx]
        simp only [decide_eq_true_eq] at h
        simp only [decide_eq_false_iff_not]
        exact fun hlt => absurd h (not_lt_of_lt hlt)

theorem charListLt_trans {a b c : List Char} (h1 : charListLt a b = true)
    (h2 : charListLt b c = true) : charListLt a c = true := by
  induction a generalizing b c with
  | nil =>
    cases c with
    | nil => cases b <;> simp [charListLt] at h1 h2
    | cons z zs => simp [charListLt]
  | cons x xs ih =>
    cases b with
    | nil => simp [charListLt] at h1
    | cons y ys =>
      cases c with
      | nil => simp [charListLt] at h2
      | cons z zs =>
        simp only [charListLt] at h1 h2 ⊢
        by_cases hxy : x = y <;> by_cases hyz : y = z
        · subst hxy; subst hyz
          rw [if_pos rfl] at h1 h2 ⊢
          exact ih h1 h2
        · subst hxy
          rw [if_pos rfl] at h1
          rw [if_neg hyz] at h2 ⊢
          exact h2
        · subst hyz
          rw [if_neg hxy] at h1 ⊢
          exact h1
        · rw [if_neg hxy] at h1
          rw [if_neg hyz] at h2
          simp only [decide_eq_true_eq] at h1 h2
          have hxz : x ≠ z := by
            intro he
            subst he
            exact absurd h2 (not_lt_of_lt h1)
          rw [if_neg hxz]
          simp only [decide_eq_true_eq]
          exact lt_trans h1 h2

theorem strLt_asymm {a b : String} (h : strLt a b = true) : strLt b a = false :=
  charListLt_asymm h

theorem strLt_trans {a b c : String} (h1 : strLt a b = true)
    (h2 : strLt b c = true) : strLt a c = true :=
  charListLt_trans h1 h2

theorem mem_insertByPath {x a : FileInfo} {l : List FileInfo} :
    a ∈ insertByPath x l ↔ a = x ∨ a ∈ l := by
  induction l with
  | nil => simp [insertByPath]
  | cons y ys ih =>
    unfold insertByPath
    by_cases h : strLt x.path y.path = true
    · rw [if_pos h]
      simp only [List.mem_cons]
    · rw [if_neg h]
      simp only [List.mem_cons, ih]
      tauto

theorem pairwise_insertByPath {x : FileInfo} {l : List FileInfo}
    (hl : List.Pairwise (fun a b => strLt b.path a.path = false) l) :
    List.Pairwise (fun a b => strLt b.path a.path = false) (insertByPath x l) := by
  induction l with
  | nil => simp [insertByPath]
  | cons y ys ih =>
    rw [List.pairwise_cons] at hl
    obtain ⟨hy, hys⟩ := hl
    unfold insertByPath
    by_cases h : strLt x.path y.path = true
    · rw [if_pos h]
      rw [List.pairwise_cons]
      constructor
      · intro z hz
        rcases List.mem_cons.mp hz with he | hz2
        · subst he
          exact strLt_asymm h
        · by_contra hne
          have hzx : strLt z.path x.path = true := by
            cases hb : strLt z.path x.path with
            | false => exact absurd hb hne
            | true => rfl
          have := strLt_trans hzx h
          rw [hy z hz2] at this
          cases this
      · rw [List.pairwise_cons]
        exact ⟨hy, hys⟩
    · rw [if_neg h]
      rw [List.pairwise_cons]
      constructor
      · intro z hz
        rcases mem_insertByPath.mp hz with he | hz2
        · rw [he]
          cases hb : strLt x.path y.path with
          | false => rfl
          | true => exact absurd hb h
        · exact hy z hz2
      · exact ih hys

theorem sortByPath_pairwise (l : List FileInfo) :
    List.Pairwise (fun a b => strLt b.path a.path = false) (sortByPath l) := by
  unfold sortByPath
  suffices hgen : ∀ acc, List.Pairwise (fun a b => strLt b.path a.path = false) acc →
      List.Pairwise (fun a b => strLt b.path a.path = false)
        (l.foldl (fun acc x => insertByPath x acc) acc) by
    exact hgen [] (by simp)
  induction l with
  | nil => intro acc h; simpa using h
  | cons x xs ih =>
    intro acc h
    rw [List.foldl_cons]
    exact ih _ (pairwise_insertByPath h)

/-! ### Helper lemmas: the listing reconciliation -/

theorem processObjects_ok {base : String} {l : List SimplifiedObjectInfo}
    (h : ∀ o ∈ l, strStartsWith o.key base = true) :
    processObjects base l =
      Except.ok (l.map (fun o =>
        (⟨posixRelpath o.key base, false, some o.size⟩ : FileInfo))) := by
  induction l with
  | nil => rfl
  | cons o rest ih =>
    have ho := h o (List.mem_cons_self o rest)
    have hrest := ih (fun x hx => h x (List.mem_cons_of_mem o hx))
    unfold processObjects verify_listed
    rw [if_pos ho, hrest, List.map_cons]

theorem processSubdirs_ok {base : String} {l : List String}
    (h : ∀ s ∈ l, strStartsWith s base = true) :
    processSubdirs base l =
      Except.ok (l.map (fun s =>
        (⟨posixRelpath s base, true, none⟩ : FileInfo))) := by
  induction l with
  | nil => rfl
  | cons s rest ih =>
    have hs := h s (List.mem_cons_self s rest)
    have hrest := ih (fun x hx => h x (List.mem_cons_of_mem s hx))
    unfold processSubdirs verify_listed
    rw [if_pos hs, hrest, List.map_cons]

theorem processObjects_error_shape {base : String} {l : List SimplifiedObjectInfo} :
    ∀ {e : Err}, processObjects base l = Except.error e →
      ∃ ap op, e = Err.objectPathMismatch ap op := by
  induction l with
  | nil => intro e h; cases h
  | cons o rest ih =>
    intro e h
    unfold processObjects verify_listed at h
    by_cases ho : strStartsWith o.key base = true
    · rw [if_pos ho] at h
      cases hrest : processObjects base rest with
      | error e2 =>
        rw [hrest] at h
        injection h with h2
        exact h2 ▸ ih hrest
      | ok infos =>
        rw [hrest] at h
        cases h
    · rw [if_neg ho] at h
      injection h with h2
      exact ⟨base, o.key, h2.symm⟩

theorem processSubdirs_error_shape {base : String} {l : List String} :
    ∀ {e : Err}, processSubdirs base l = Except.error e →
      ∃ ap op, e = Err.objectPathMismatch ap op := by
  induction l with
  | nil => intro e h; cases h
  | cons s rest ih =>
    intro e h
    unfold processSubdirs verify_listed at h
    by_cases hs : strStartsWith s base = true
    · rw [if_pos hs] at h
      cases hrest : processSubdirs base rest with
      | error e2 =>
        rw [hrest] at h
        injection h with h2
        exact h2 ▸ ih hrest
      | ok infos =>
        rw [hrest] at h
        cases h
    · rw [if_neg hs] at h
      injection h with h2
      exact ⟨base, s, h2.symm⟩

theorem processObjects_error_iff {base : String} {l : List SimplifiedObjectInfo} :
    (∃ e, processObjects base l = Except.error e) ↔
      (∃ o ∈ l, strStartsWith o.key base = false) := by
  induction l with
  | nil => simp [processObjects]
  | cons o rest ih =>
    unfold processObjects verify_listed
    by_cases ho : strStartsWith o.key base = true
    · rw [if_pos ho]
      constructor
      · rintro ⟨e, he⟩
        cases hrest : processObjects base rest with
        | error e2 =>
          rcases ih.mp ⟨e2, hrest⟩ with ⟨x, hx, hxf⟩
          exact ⟨x, List.mem_cons_of_mem o hx, hxf⟩
        | ok infos =>
          rw [hrest] at he
          cases he
      · rintro ⟨x, hx, hxf⟩
        rcases List.mem_cons.mp hx with he | hx2
        · rw [he] at hxf
          rw [ho] at hxf
          cases hxf
        · rcases ih.mpr ⟨x, hx2, hxf⟩ with ⟨e, he⟩
          rw [he]
          exact ⟨e, rfl⟩
    · rw [if_neg ho]
      constructor
      · intro _
        refine ⟨o, List.mem_cons_self o rest, ?_⟩
        cases hb : strStartsWith o.key base with
        | false => rfl
        | true => exact absurd hb ho
      · intro _
        exact ⟨Err.objectPathMismatch base o.key, rfl⟩

theorem processSubdirs_error_iff {base : String} {l : List String} :
    (∃ e, processSubdirs base l = Except.error e) ↔
      (∃ s ∈ l, strStartsWith s base = false) := by
  induction l with
  | nil => simp [processSubdirs]
  | cons s rest ih =>
    unfold processSubdirs verify_listed
    by_cases hs : strStartsWith s base = true
    · rw [if_pos hs]
      constructor
      · rintro ⟨e, he⟩
        cases hrest : processSubdirs base rest with
        | error e2 =>
          rcases ih.mp ⟨e2, hrest⟩ with ⟨x, hx, hxf⟩
          exact ⟨x, List.mem_cons_of_mem s hx, hxf⟩
        | ok infos =>
          rw [hrest] at he
          cases he
      · rintro ⟨x, hx, hxf⟩
        rcases List.mem_cons.mp hx with he | hx2
        · rw [he] at hxf
          rw [hs] at hxf
          cases hxf
        · rcases ih.mpr ⟨x, hx2, hxf⟩ with ⟨e, he⟩
          rw [he]
          exact ⟨e, rfl⟩
    · rw [if_neg hs]
      constructor
      · intro _
        refine ⟨s, List.mem_cons_self s rest, ?_⟩
        cases hb : strStartsWith s base with
        | false => rfl
        | true => exact absurd hb hs
      · intro _
        exact ⟨Err.objectPathMismatch base s, rfl⟩

theorem list_results_ok {base : String} {res : ListObjectsResult}
    (hk : ∀ o ∈ res.object_list, strStartsWith o.key base = true)
    (hp : ∀ s ∈ res.pfx_list, strStartsWith s base = true) :
    list_artifacts_results base res =
      Except.ok (sortByPath
        (res.object_list.map (fun o =>
          (⟨posixRelpath o.key base, false, some o.size⟩ : FileInfo)) ++
         res.pfx_list.map (fun s =>
          (⟨posixRelpath s base, true, none⟩ : FileInfo)))) := by
  unfold list_artifacts_results
  rw [processObjects_ok hk, processSubdirs_ok hp]

theorem list_results_mismatch_iff {base : String} {res : ListObjectsResult} :
    (∃ ap op, list_artifacts_results base res =
        Except.error (Err.objectPathMismatch ap op)) ↔
      ((∃ o ∈ res.object_list, strStartsWith o.key base = false) ∨
       (∃ s ∈ res.pfx_list, strStartsWith s base = false)) := by
  unfold list_artifacts_results
  cases hobj : processObjects base res.object_list with
  | error e =>
    obtain ⟨ap, op, he⟩ := processObjects_error_shape hobj
    subst he
    constructor
    · intro _
      exact Or.inl (processObjects_error_iff.mp ⟨_, hobj⟩)
    · intro _
      exact ⟨ap, op, rfl⟩
  | ok fileInfos =>
    have hkeys : ¬ ∃ o ∈ res.object_list, strStartsWith o.key base = false := by
      intro hex
      rcases processObjects_error_iff.mpr hex with ⟨e, he⟩
      rw [hobj] at he
      cases he
    cases hsub : processSubdirs base res.pfx_list with
    | error e =>
      obtain ⟨ap, op, he⟩ := processSubdirs_error_shape hsub
      subst he
      constructor
      · intro _
        exact Or.inr (processSubdirs_error_iff.mp ⟨_, hsub⟩)
      · intro _
        exact ⟨ap, op, rfl⟩
    | ok dirInfos =>
      have hsubs : ¬ ∃ s ∈ res.pfx_list, strStartsWith s base = false := by
        intro hex
        rcases processSubdirs_error_iff.mpr hex with ⟨e, he⟩
        rw [hsub] at he
        cases he
      constructor
      · rintro ⟨ap, op, he⟩
        cases he
      · rintro (h | h)
        · exact absurd h hkeys
        · exact absurd h hsubs

theorem uploadKeysOfEntry_spec (dest_path local_dir : String) (rel : List String)
    (files : List String) (hcl : ∀ n ∈ rel, cleanName n = true) :
    uploadKeysOfEntry dest_path local_dir (walkRoot local_dir rel, files) =
      files.map (fun f =>
        posixJoin
          (if rel = [] then dest_path
           else posixJoin dest_path (String.intercalate "/" rel)) f) := by
  by_cases hrel : rel = []
  · subst hrel
    simp [uploadKeysOfEntry, walkRoot]
  · have hcomps := pathComps_walkRoot local_dir rel hcl
    have hne : walkRoot local_dir rel ≠ local_dir := by
      intro he
      rw [he] at hcomps
      have hlen : (pathComps local_dir).length =
          (pathComps local_dir).length + rel.length := by
        conv_lhs => rw [hcomps]
        rw [List.length_append]
      have hz : rel.length = 0 := by omega
      exact hrel (List.length_eq_zero.mp hz)
    simp only [uploadKeysOfEntry, relative_path_to_artifact_path]
    rw [if_neg hne, if_neg hrel, posixRelpath_of_comps hcomps hrel]

/-! ### The claims -/

/-- Claim C1: for every listing call, each storage-returned object key is
mapped to an entry whose relative path is the key made relative to the base
artifact path, with `isDirectory = false` and the collaborator-reported
size; each returned common prefix is mapped to an entry with the prefix made
relative, `isDirectory = true` and no size; the combined list is returned
sorted ascending lexicographically by relative path; and on the concrete
input with keys `run/a.txt`, `run/b.txt`, prefix `run/sub/` and base `run`
the result is exactly `a.txt` (file), `b.txt` (file), `sub` (dir), in that
order. -/
theorem c1_list_artifacts_entries_and_sorted
    (base : String) (objs : List SimplifiedObjectInfo) (prefs : List String)
    (hk : ∀ o ∈ objs, strStartsWith o.key base = true)
    (hp : ∀ s ∈ prefs, strStartsWith s base = true) :
    list_artifacts_results base ⟨objs, prefs⟩ =
      Except.ok (sortByPath
        (objs.map (fun o =>
          (⟨posixRelpath o.key base, false, some o.size⟩ : FileInfo)) ++
         prefs.map (fun s =>
          (⟨posixRelpath s base, true, none⟩ : FileInfo))))
    ∧ (∀ r, list_artifacts_results base ⟨objs, prefs⟩ = Except.ok r →
        List.Pairwise (fun a b => strLt b.path a.path = false) r)
    ∧ list_artifacts_results "run"
        ⟨[⟨"run/a.txt", 7⟩, ⟨"run/b.txt", 9⟩], ["run/sub/"]⟩ =
        Except.ok [⟨"a.txt", false, some 7⟩, ⟨"b.txt", false, some 9⟩,
          ⟨"sub", true, none⟩] := by
  have h1 := @list_results_ok base ⟨objs, prefs⟩ hk hp
  refine ⟨h1, ?_, by decide⟩
  intro r hr
  rw [h1] at hr
  injection hr with hr2
  rw [← hr2]
  exact sortByPath_pairwise _

theorem c1_witness :
    list_artifacts_results "run"
        ⟨[⟨"run/a.txt", 7⟩, ⟨"run/b.txt", 9⟩], ["run/sub/"]⟩ =
      Except.ok [⟨"a.txt", false, some 7⟩, ⟨"b.txt", false, some 9⟩,
        ⟨"sub", true, none⟩] :=
  (c1_list_artifacts_entries_and_sorted "run"
    [⟨"run/a.txt", 7⟩, ⟨"run/b.txt", 9⟩] ["run/sub/"]
    (by decide) (by decide)).2.2

/-- Claim C2: for all valid (prefix, subpath) — prefix nonempty without a
trailing slash, subpath (when given and non-empty) without a leading or
trailing slash — the effective key built by `log_artifact` equals
`prefix + "/" + subpath + "/" + basename(file)` when a non-empty sub-path is
given, and `prefix + "/" + basename(file)` when the sub-path argument is
absent or the empty string. -/
theorem c2_log_artifact_effective_key (pfx sub file : String)
    (h1 : pfx ≠ "") (h2 : ¬ endsWithSlash pfx)
    (h3 : sub ≠ "") (h4 : ¬ startsWithSlash sub) (h5 : ¬ endsWithSlash sub) :
    log_artifact_dest pfx (some sub) file =
      pfx ++ "/" ++ sub ++ "/" ++ posixBasename file
    ∧ log_artifact_dest pfx none file = pfx ++ "/" ++ posixBasename file
    ∧ log_artifact_dest pfx (some "") file = pfx ++ "/" ++ posixBasename file := by
  have hbase := not_startsWithSlash_posixBasename file
  refine ⟨?_, ?_, ?_⟩
  · simp only [log_artifact_dest, applySubpath]
    rw [if_neg h3, posixJoin_eq_slash h1 h2 h4]
    have hne : pfx ++ "/" ++ sub ≠ "" := append_slash_ne_empty pfx sub
    have hend : ¬ endsWithSlash (pfx ++ "/" ++ sub) := by
      rw [endsWithSlash_append sub h3]
      exact h5
    rw [posixJoin_eq_slash hne hend hbase]
  · simp only [log_artifact_dest, applySubpath]
    rw [posixJoin_eq_slash h1 h2 hbase]
  · simp only [log_artifact_dest, applySubpath]
    rw [if_pos trivial, posixJoin_eq_slash h1 h2 hbase]

theorem c2_witness :
    log_artifact_dest "run" (some "sub") "/tmp/f.txt" =
      "run" ++ "/" ++ "sub" ++ "/" ++ posixBasename "/tmp/f.txt" :=
  (c2_log_artifact_effective_key "run" "sub" "/tmp/f.txt"
    (by decide) (by decide) (by decide) (by decide) (by decide)).1

/-- Claim C3: for every URI whose parsed scheme is `oss`, `parse_oss_uri`
returns the authority component verbatim as the bucket and the path
component with exactly one leading slash removed as the key prefix, with no
other normalization; in particular on `oss://mybucket/path/to/run`,
`oss://mybucket`, and on paths with double slashes, trailing slashes and dot
segments, which are preserved. -/
theorem c3_parse_oss_uri_components (uri : String)
    (h : (urlparse uri).scheme = "oss") :
    parse_oss_uri uri =
      Except.ok ((urlparse uri).netloc, stripOneLeadingSlash (urlparse uri).path)
    ∧ parse_oss_uri "oss://mybucket/path/to/run" =
        Except.ok ("mybucket", "path/to/run")
    ∧ parse_oss_uri "oss://mybucket" = Except.ok ("mybucket", "")
    ∧ parse_oss_uri "oss://mybucket//a//b/" = Except.ok ("mybucket", "/a//b/")
    ∧ parse_oss_uri "oss://mybucket/./x/../y" = Except.ok ("mybucket", "./x/../y") := by
  refine ⟨?_, by decide, by decide, by decide, by decide⟩
  simp only [parse_oss_uri]
  rw [if_neg (not_not_intro h)]

theorem c3_witness :
    parse_oss_uri "oss://mybucket/path/to/run" =
      Except.ok ("mybucket", "path/to/run") :=
  (c3_parse_oss_uri_components "oss://mybucket/path/to/run" (by decide)).2.1

/-- Claim C4: the directory upload sends each regular file found by the walk
to `join(effectiveRoot, relativeDirPath, filename)`, where `relativeDirPath`
is the file's directory relative to the walk root in posix form, and files
directly in the walk root to `join(effectiveRoot, filename)`; in particular
the tree `root/{f1.txt, sub/f2.txt}` with effective root `run` uploads
exactly the keys `run/f1.txt` and `run/sub/f2.txt`. -/
theorem c4_log_artifacts_walk_keys (dest_path : String) (sub : Option String)
    (local_dir : String) (dirs : List (List String × List String))
    (hclean : ∀ d ∈ dirs, ∀ n ∈ d.1, cleanName n = true) :
    log_artifacts_keys dest_path sub local_dir (os_walk_entries local_dir dirs) =
      specUploadKeys (applySubpath dest_path sub) dirs
    ∧ log_artifacts_keys "run" none "/work/root"
        (os_walk_entries "/work/root" [([], ["f1.txt"]), (["sub"], ["f2.txt"])]) =
        ["run/f1.txt", "run/sub/f2.txt"] := by
  refine ⟨?_, by decide⟩
  simp only [log_artifacts_keys, os_walk_entries, specUploadKeys]
  rw [List.map_map]
  congr 1
  apply List.map_congr_left
  intro d hd
  simp only [Function.comp_apply]
  exact uploadKeysOfEntry_spec (applySubpath dest_path sub) local_dir d.1 d.2
    (hclean d hd)

theorem c4_witness :
    log_artifacts_keys "run" none "/work/root"
        (os_walk_entries "/work/root" [([], ["f1.txt"]), (["sub"], ["f2.txt"])]) =
      ["run/f1.txt", "run/sub/f2.txt"] :=
  (c4_log_artifacts_walk_keys "run" none "/work/root"
    [([], ["f1.txt"]), (["sub"], ["f2.txt"])] (by decide)).2

/-- Claim C5: a listing call fails with the `ObjectPathMismatch` error if
and only if some storage-returned object key or common prefix does not start
(as a string prefix) with the base key prefix parsed from the artifact URI
(the original artifact path, not the sub-path-adjusted listing path). -/
theorem c5_object_path_mismatch_iff (uri b base : String) (p : Option String)
    (storage : String → String → ListObjectsResult)
    (h : parse_oss_uri uri = Except.ok (b, base)) :
    (∃ ap op, list_artifacts uri p storage =
        Except.error (Err.objectPathMismatch ap op)) ↔
      ((∃ o ∈ (storage (list_query_pfx base p) "/").object_list,
          strStartsWith o.key base = false) ∨
       (∃ s ∈ (storage (list_query_pfx base p) "/").pfx_list,
          strStartsWith s base = false)) := by
  unfold list_artifacts
  rw [h]
  exact list_results_mismatch_iff

theorem c5_witness :
    ∃ ap op,
      list_artifacts "oss://b/run" none
          (fun _ _ => ⟨[⟨"other/x", 1⟩], []⟩) =
        Except.error (Err.objectPathMismatch ap op) :=
  (c5_object_path_mismatch_iff "oss://b/run" "b" "run" none
    (fun _ _ => ⟨[⟨"other/x", 1⟩], []⟩) (by decide)).mpr (by decide)

/-- Claim C6, counterexample: the claim states that the prefix passed to the
storage query always equals the effective listing path followed by `/`,
including when the effective listing path is empty; but for the URI
`oss://mybucket` (base key prefix `""`) with no sub-path the code passes the
empty string, not `"/"`. -/
theorem c6_counterexample :
    parse_oss_uri "oss://mybucket" = Except.ok ("mybucket", "")
    ∧ applySubpath "" none = ""
    ∧ list_query_pfx "" none = ""
    ∧ list_query_pfx "" none ≠ applySubpath "" none ++ "/" := by
  decide

/-- Claim C6, amended: every listing call queries the storage collaborator
exactly once, at the prefix `list_query_pfx base p` and the delimiter `/`
(the result depends on the collaborator only through that value), and this
query prefix equals the effective listing path followed by `/` when the
effective listing path is non-empty, and the empty string when it is
empty. -/
theorem c6_query_pfx_amended (uri b base : String) (p : Option String)
    (storage : String → String → ListObjectsResult)
    (h : parse_oss_uri uri = Except.ok (b, base)) :
    list_artifacts uri p storage =
      list_artifacts_results base (storage (list_query_pfx base p) "/")
    ∧ list_query_pfx base p =
        (if applySubpath base p = "" then "" else applySubpath base p ++ "/") := by
  constructor
  · unfold list_artifacts
    rw [h]
  · unfold list_query_pfx
    by_cases hd : applySubpath base p = ""
    · rw [if_pos hd, if_neg (by rw [hd]; exact fun hne => hne rfl)]
    · rw [if_neg hd, if_pos hd]

theorem c6_witness :
    list_query_pfx "run" none =
      (if applySubpath "run" none = "" then "" else applySubpath "run" none ++ "/") :=
  (c6_query_pfx_amended "oss://b/run" "b" "run" none
    (fun _ _ => ⟨[], []⟩) (by decide)).2

/-- Claim C7: for every input URI whose parsed scheme is not `oss`,
`parse_oss_uri` fails with the invalid-scheme error and does nothing else;
in particular `s3://mybucket/x` is rejected. -/
theorem c7_non_oss_scheme_rejected (uri : String)
    (h : (urlparse uri).scheme ≠ "oss") :
    parse_oss_uri uri = Except.error (Err.invalidURIScheme uri)
    ∧ parse_oss_uri "s3://mybucket/x" =
        Except.error (Err.invalidURIScheme "s3://mybucket/x") := by
  refine ⟨?_, by decide⟩
  simp only [parse_oss_uri]
  rw [if_pos h]

theorem c7_witness :
    parse_oss_uri "s3://mybucket/x" =
      Except.error (Err.invalidURIScheme "s3://mybucket/x") :=
  (c7_non_oss_scheme_rejected "s3://mybucket/x" (by decide)).1

/-- Claim C8: for every sub-path argument (including none), `delete_artifacts`
always fails with the not-implemented error — it never succeeds, and the
embedding takes no storage collaborator and no state, reflecting that the
source method only raises. -/
theorem c8_delete_artifacts_not_implemented (p : Option String) :
    delete_artifacts p = Except.error Err.notImplemented := rfl

/-- Claim C9: the bucket handle is constructed at most once per repository
instance: from a fresh state the first `_get_oss_bucket` call constructs and
stores the handle built from the instance's auth, endpoint and the given
name; the second call — with any name — returns exactly the stored handle
and leaves the state unchanged; and in general any call on a state that
already holds a handle returns that handle unchanged. -/
theorem c9_bucket_constructed_once (s : RepoState) (name1 name2 : String)
    (h : s.oss_bucket = none) :
    (_get_oss_bucket s name1).1 = ⟨s.auth, s.oss_endpoint_url, name1⟩
    ∧ (_get_oss_bucket s name1).2.oss_bucket = some (_get_oss_bucket s name1).1
    ∧ _get_oss_bucket (_get_oss_bucket s name1).2 name2 =
        ((_get_oss_bucket s name1).1, (_get_oss_bucket s name1).2)
    ∧ ∀ (s2 : RepoState) (b : OssBucket) (nm : String),
        s2.oss_bucket = some b → _get_oss_bucket s2 nm = (b, s2) := by
  have hgen : ∀ (s2 : RepoState) (b : OssBucket) (nm : String),
      s2.oss_bucket = some b → _get_oss_bucket s2 nm = (b, s2) := by
    intro s2 b nm hb
    unfold _get_oss_bucket
    rw [hb]
  have h1 : _get_oss_bucket s name1 =
      (⟨s.auth, s.oss_endpoint_url, name1⟩,
       { s with oss_bucket := some ⟨s.auth, s.oss_endpoint_url, name1⟩ }) := by
    unfold _get_oss_bucket
    rw [h]
  have h2 : (_get_oss_bucket s name1).2.oss_bucket = some (_get_oss_bucket s name1).1 := by
    rw [h1]
  exact ⟨by rw [h1], h2, hgen _ _ name2 h2, hgen⟩

theorem c9_witness :
    _get_oss_bucket (_get_oss_bucket ⟨"auth", "ep", none⟩ "b1").2 "b2" =
      ((_get_oss_bucket ⟨"auth", "ep", none⟩ "b1").1,
       (_get_oss_bucket ⟨"auth", "ep", none⟩ "b1").2) :=
  (c9_bucket_constructed_once ⟨"auth", "ep", none⟩ "b1" "b2" rfl).2.2.1

/-- Claim C10 (implicit): for a repository with a non-empty base key prefix,
a sub-path argument that begins with `/` makes the posix join discard the
base prefix entirely: the sub-path-adjusted destination equals the absolute
sub-path alone (single-file upload and listing), the download key equals the
absolute sub-path alone, and the upload key is built from the absolute
sub-path alone — the operation proceeds against keys outside the base
prefix instead of failing. -/
theorem c10_absolute_subpath_escapes_base (base sub file : String)
    (hb : base ≠ "") (hs : startsWithSlash sub) :
    applySubpath base (some sub) = sub
    ∧ log_artifact_dest base (some sub) file = posixJoin sub (posixBasename file)
    ∧ download_full_path base sub = sub := by
  have hsub_ne : sub ≠ "" := by
    intro he
    rw [he] at hs
    cases hs
  have happ : applySubpath base (some sub) = sub := by
    simp only [applySubpath]
    rw [if_neg hsub_ne]
    unfold posixJoin
    rw [if_pos hs]
  refine ⟨happ, ?_, ?_⟩
  · unfold log_artifact_dest
    rw [happ]
  · unfold download_full_path posixJoin
    rw [if_pos hs]

theorem c10_witness :
    applySubpath "run" (some "/abs") = "/abs"
    ∧ download_full_path "run" "/abs" = "/abs" :=
  ⟨(c10_absolute_subpath_escapes_base "run" "/abs" "f.txt" (by decide) (by decide)).1,
   (c10_absolute_subpath_escapes_base "run" "/abs" "f.txt" (by decide) (by decide)).2.2⟩

end AliyunOss
